import Mathlib

/-!
Verification of the fact-grounded content-assembly pipeline of the
real-estate description generator (`app/api/generate/route.ts`).

The JavaScript code is shallowly embedded: JS strings become `String`
(lists of characters; JS `.length`, `.trim()`, `.includes()` and
`.replaceAll()` are modelled character-wise, which coincides with the
UTF-16 semantics on the basic multilingual plane used throughout the
sources), JS objects of string facts become association lists, and the
model payload consumed by the grounding validator is modelled after the
JS coercions the code applies to it.
-/

namespace MansionWriter

/-- Substring occurrence test on character lists. -/
def occursInL (pat : List Char) : List Char → Bool
  | [] => pat.isEmpty
  | c :: rest => pat.isPrefixOf (c :: rest) || occursInL pat rest

/-- JS `String.prototype.includes`: `pat` occurs as a contiguous substring of `s`. -/
def strIncludes (s pat : String) : Bool :=
  occursInL pat.data s.data

/-- Whitespace characters removed by JS `String.prototype.trim`. -/
def isJsWs (c : Char) : Bool :=
  c == ' ' || c == '\t' || c == '\n' || c == '\r' || c == '\x0b' || c == '\x0c' ||
  c == ' ' || c == '　' || c == '﻿'

/-- JS trim on character lists: drop trailing, then leading whitespace. -/
def trimChars (s : List Char) : List Char :=
  (s.rdropWhile isJsWs).dropWhile isJsWs

/-- JS `String.prototype.trim`. -/
def jsTrim (s : String) : String :=
  String.mk (trimChars s.data)

/-- Worker for `splitKeepAfter`; `cur` holds the current piece in reverse. -/
def splitGo (isDelim : Char → Bool) : List Char → List Char → List (List Char)
  | cur, [] => [cur.reverse]
  | cur, c :: rest =>
    if isDelim c then
      if rest.isEmpty then [(c :: cur).reverse]
      else (c :: cur).reverse :: splitGo isDelim [] rest
    else splitGo isDelim (c :: cur) rest

/-- JS `text.split(re)` for a lookbehind delimiter class `re`: the text is cut
after every delimiter character, the delimiter staying at the end of the
preceding piece; the result is never empty. -/
def splitKeepAfter (isDelim : Char → Bool) (s : String) : List String :=
  (splitGo isDelim [] s.data).map String.mk

/-- A JS object of string-valued facts (the `PropertyFacts` record type),
modelled as an association list. -/
abbrev Facts := List (String × String)

/-- JS property read `obj[k]`, `undefined` becoming `none` (keys of a JS
object are unique, so the first binding is the binding). -/
def lookupFact : Facts → String → Option String
  | [], _ => none
  | kv :: rest, k => if kv.1 = k then some kv.2 else lookupFact rest k

/-- JS property assignment `obj[k] = v`: overwrite the binding of an
existing key, append a new key at the end. -/
def setFact : Facts → String → String → Facts
  | [], k, v => [(k, v)]
  | kv :: rest, k, v => if kv.1 = k then (k, v) :: rest else kv :: setFact rest k v

/-- JS `delete obj[k]`. -/
def deleteFact (f : Facts) (k : String) : Facts :=
  f.filter (fun kv => kv.1 ≠ k)

/-- Request scope: `"部屋"` (unit) or `"棟"` (building). -/
inductive Scope where
  | unit
  | building
deriving DecidableEq

/-- `BANNED_WORDS` from `route.ts`. -/
def BANNED_WORDS : List String :=
  ["完全", "完ぺき", "絶対", "万全", "100％", "フルリフォーム", "理想",
   "日本一", "日本初", "業界一", "超", "当社だけ", "他に類を見ない", "抜群", "一流",
   "特選", "厳選", "正統", "由緒正しい", "地域でナンバーワン",
   "最高", "最高級", "特級", "最新", "最適", "至便", "至近", "一級", "絶好",
   "買得", "掘り出し物", "土地値", "格安", "破格", "特安", "激安", "バーゲンセール",
   "心理的瑕疵あり", "告知事項あり", "契約不適合責任免責", "引渡し猶予", "価格応談",
   "稀少物件", "逸品", "とっておき", "人気の", "新築同様", "新品同様", "資産価値ある", "値上がりが期待できる", "将来性あり",
   "自己資金0円", "今だけ", "今しかない", "今がチャンス", "高利回り", "空室の心配なし",
   "売主につき手数料不要", "建築確認費用は価格に含む", "国土交通大臣免許だから安心です", "検査済証取得物件",
   "傾斜地", "路地状敷地", "高圧電線下",
   "ディズニーランド", "ユニバーサルスタジオジャパン", "東京ドーム", "ユニバ ーサルスタジオジャパ ン", "東京ド ーム"]

/-- `BANNED_PHRASES` from `route.ts`. -/
def BANNED_PHRASES : List String :=
  ["想定されます", "といえるでしょう", "と言えるでしょう", "といえます", "と言えます",
   "感じられます", "考えられます", "周辺については、", "周辺については、詳細な記載はありませんが",
   "利便性が感じられます", "利便性が高いと言える", "でしょう。", "でしょう"]

/-- One pass of JS `String.prototype.replaceAll` on character lists: leftmost
non-overlapping matches of `pat` are replaced by `repl`, scanning left to
right and never rescanning replacement text.  The fuel argument bounds the
recursion; `replaceAll` supplies the length of the scanned list. -/
def replaceListFuel (pat repl : List Char) : Nat → List Char → List Char
  | 0, s => s
  | _ + 1, [] => []
  | n + 1, c :: rest =>
    if pat.isPrefixOf (c :: rest) && !pat.isEmpty then
      repl ++ replaceListFuel pat repl n (rest.drop (pat.length - 1))
    else
      c :: replaceListFuel pat repl n rest

/-- JS `s.replaceAll(pat, repl)` for a non-empty literal pattern. -/
def replaceAll (s pat repl : String) : String :=
  String.mk (replaceListFuel pat.data repl.data s.data.length s.data)

/-- `sanitizeForbidden` from `route.ts`: every banned word `w` is replaced by
`※w（表現調整）`, and the result is trimmed. -/
def sanitizeForbidden (text : String) : String :=
  jsTrim (BANNED_WORDS.foldl (fun out w => replaceAll out w ("※" ++ w ++ "（表現調整）")) text)

/-- `dropBannedPhrases` from `route.ts`. -/
def dropBannedPhrases (text : String) : String :=
  let sentences := splitKeepAfter
    (fun c => c == '。' || c == '！' || c == '!' || c == '？' || c == '\n') text
  jsTrim (String.join (sentences.filter (fun s => !(BANNED_PHRASES.any (fun p => strIncludes s p)))))

/-- The body of the `for` loop of `mergeFacts` in `route.ts`.  JS details:
`!v` tests for the empty string (all modelled fact values are strings),
`!out[k]` is true when the key is absent or holds the empty string,
`String(·)` is the identity here, and the comparison `nv.length >
cur.length` is on the raw, untrimmed strings. -/
def mergeStep (out : Facts) (kv : String × String) : Facts :=
  if kv.2 == "" then out
  else
    match lookupFact out kv.1 with
    | none => setFact out kv.1 kv.2
    | some cur =>
      if cur == "" then setFact out kv.1 kv.2
      else if cur.length < kv.2.length then setFact out kv.1 kv.2
      else out

/-- `mergeFacts` from `route.ts`. -/
def mergeFacts (base add : Facts) : Facts :=
  add.foldl mergeStep base

/-- Modelled from the spec: `UNIT_ONLY_KEYS` is imported from `lib/schema.ts`,
which is not among the available sources.  Spec §3 classifies the unit-only
keys as layout, floor area, floor number, orientation, renovation status and
in-unit equipment; the candidate-key list of the page component spells them
as below. -/
def UNIT_ONLY_KEYS : List String :=
  ["間取り", "専有面積", "バルコニー面積", "階", "方角", "リフォーム", "リノベーション", "室内設備"]

/-- Modelled from the spec: `UNIT_ONLY_KEYWORDS` is imported from
`lib/schema.ts`, which is not among the available sources.  Spec §4.3 only
requires a fixed list of unit-only keywords whose presence in a sentence
marks it as unit-level. -/
def UNIT_ONLY_KEYWORDS : List String :=
  ["間取り", "専有面積", "所在階", "方角", "リフォーム", "リノベーション", "室内設備"]

/-- `stripUnitOnlyFactsForBuildingScope` from `route.ts`. -/
def stripUnitOnlyFactsForBuildingScope (facts : Facts) (scope : Scope) : Facts :=
  if scope = Scope.unit then facts
  else UNIT_ONLY_KEYS.foldl deleteFact facts

/-- The delimiter class of `text.split(/(?<=。|\n)/)` in
`stripUnitOnlySentences`. -/
def unitSentenceDelim (c : Char) : Bool := c == '。' || c == '\n'

/-- The sentence filter of `stripUnitOnlySentences`: keep a sentence iff it
contains no unit-only keyword. -/
def keepsSentence (s : String) : Bool :=
  !(UNIT_ONLY_KEYWORDS.any (fun kw => strIncludes s kw))

/-- `stripUnitOnlySentences` from `route.ts`: at building scope the text is
split after `。` or a newline, sentences containing a unit-only keyword are
dropped, and `(kept.join("").trim() || sentences[0] || "").trim()` is
returned. -/
def stripUnitOnlySentences (text : String) (scope : Scope) : String :=
  if scope = Scope.unit then text
  else
    let sentences := splitKeepAfter unitSentenceDelim text
    let kept := jsTrim (String.join (sentences.filter keepsSentence))
    jsTrim (if kept ≠ "" then kept else sentences.headD "")

/-- `enforceMustInclude` from `route.ts`. -/
def enforceMustInclude (text : String) (facts : Facts) (keys : List String) (scope : Scope) : String :=
  if keys.isEmpty then text
  else
    let unitOnly : List String :=
      ["間取り", "専有面積", "バルコニー面積", "階", "方角", "リフォーム", "リノベーション", "室内設備"]
    let applicable := if scope = Scope.building then keys.filter (fun k => !unitOnly.contains k) else keys
    let missing := applicable.filterMap (fun k =>
      match lookupFact facts k with
      | none => none
      | some v =>
        if v == "" then none
        else if strIncludes text v || strIncludes text (k ++ "：" ++ v) ||
            strIncludes text (k ++ ":" ++ v) then none
        else some (k, v))
    if missing.isEmpty then text
    else
      text ++ "\n\n【情報の明示（抽出値）】\n" ++
        String.intercalate "\n" (missing.map (fun m => "・" ++ m.1 ++ "：" ++ m.2))

/-- `countFacts` from `route.ts` (every modelled fact value is a string, so
the `typeof` test is vacuous). -/
def countFacts (obj : Facts) : Nat :=
  (obj.filter (fun kv => jsTrim kv.2 ≠ "")).length

/-- `MIN_FACTS_FOR_GENERATION` from `route.ts`. -/
def MIN_FACTS_FOR_GENERATION : Nat := 3

/-- `factOnlyOutput` from `route.ts`. -/
def factOnlyOutput (facts : Facts) (scope : Scope) : String :=
  let lines := String.intercalate "\n"
    ((facts.filter (fun kv => kv.2 ≠ "")).map (fun kv => "・" ++ kv.1 ++ "：" ++ kv.2))
  let advice :=
    if scope = Scope.building then
      "（棟スコープでは専有部の情報は扱いません。建物名／所在地／築年／構造／総戸数／階数／最寄駅／徒歩分／管理体制 などをページに記載してください）"
    else
      "（部屋スコープでは間取り／専有面積／所在階／方角／リフォーム／室内設備 などがあると生成精度が上がります）"
  String.intercalate "\n"
    ["【生成停止：情報が不足しています】", "ページから抽出できた事実のみを表示します（推測は行いません）。", "",
     "【抽出できた事実】", if lines == "" then "・（抽出できませんでした）" else lines, "",
     "【お願い】", advice]

/-- A sentence of the structured model payload, after the JS coercions the
validator applies (`String(s?.text ?? "")`, `Array.isArray(s?.keys) ? s.keys
: []`); a missing or ill-typed field is `none`. -/
structure RawSentence where
  text : Option String
  keys : Option (List String)

/-- A section of the structured model payload; `sentences` is `none` when the
field is missing or not an array. -/
structure RawSection where
  name : Option String
  sentences : Option (List RawSentence)

/-- The per-sentence acceptance test of the grounding validator in `POST`
(`route.ts` lines 285-294), returning the trimmed text of an accepted
sentence; the source's local `txt` and `keys` bindings are inlined. -/
def validSentence (allowed : List String) (factValues : Facts) (s : RawSentence) : Option String :=
  if (s.keys.getD []).isEmpty then none
  else if !((s.keys.getD []).all (fun k => allowed.contains k)) then none
  else if !((s.keys.getD []).any (fun k =>
      match lookupFact factValues k with
      | some v => v ≠ "" && strIncludes (jsTrim (s.text.getD "")) v
      | none => false)) then none
  else if BANNED_PHRASES.any (fun p => strIncludes (jsTrim (s.text.getD "")) p) then none
  else some (jsTrim (s.text.getD ""))

/-- The section loop of the grounding validator in `POST` (`route.ts` lines
281-298): surviving sentences are joined per section and sections with no
survivor are dropped. -/
def validateSections (allowed : List String) (factValues : Facts) (sections : List RawSection) : List String :=
  sections.filterMap (fun sec =>
    match sec.sentences with
    | none => none
    | some ss =>
      let valid := ss.filterMap (validSentence allowed factValues)
      if valid.isEmpty then none else some (String.join valid))

/-- `allowedKeys` in `POST` (`route.ts` lines 217-219). -/
def allowedKeysOf (scopedFacts : Facts) : List String :=
  (scopedFacts.filter (fun kv => jsTrim kv.2 ≠ "")).map (fun kv => kv.1)

/-- `factValues` in `POST` (`route.ts` lines 220-222); `String(v ?? "")` is
the identity on our string-valued facts. -/
def factValuesOf (scopedFacts : Facts) : Facts := scopedFacts

/-- The success path of `POST` after the raw model output has been parsed
(`route.ts` lines 279-310); `payload = none` models a raw output from which
no JSON object could be extracted or parsed (lines 268-277). -/
def generateFromPayload (scopedFacts : Facts) (scope : Scope) (mustIncludeKeys : List String)
    (payload : Option (List RawSection)) : String :=
  match payload with
  | none => factOnlyOutput scopedFacts scope
  | some sections =>
    let paragraphs := validateSections (allowedKeysOf scopedFacts) (factValuesOf scopedFacts) sections
    if paragraphs.isEmpty then factOnlyOutput scopedFacts scope
    else
      let joined := String.intercalate "\n\n" paragraphs
      let noWeasel := dropBannedPhrases joined
      let scopeClean := stripUnitOnlySentences noWeasel scope
      let cleaned := sanitizeForbidden scopeClean
      enforceMustInclude cleaned scopedFacts mustIncludeKeys scope

/-- `POST` from the evidence gate on (`route.ts` lines 212-310), for a fact
set that has already been scoped. -/
def pipelineAfterScope (scopedFacts : Facts) (scope : Scope) (mustIncludeKeys : List String)
    (payload : Option (List RawSection)) : String :=
  if countFacts scopedFacts < MIN_FACTS_FOR_GENERATION then factOnlyOutput scopedFacts scope
  else generateFromPayload scopedFacts scope mustIncludeKeys payload

/-- The `inString` update of `extractFirstJsonObject` (`route.ts` line 143):
a quote toggles the string state unless the immediately preceding character
is a backslash. -/
def ejoToggle (inString : Bool) (prev : Option Char) (ch : Char) : Bool :=
  if ch == '"' && prev != some '\\' then !inString else inString

/-- The scan loop of `extractFirstJsonObject` (`route.ts` lines 140-152);
`acc` holds the characters scanned so far, in reverse.  The `inString` toggle
is computed first and the brace tests then read the updated value, exactly as
in the source (the source's mutated `inString` binding is written
`ejoToggle inString prev ch` at each use). -/
def ejoLoop : List Char → Int → Bool → Option Char → List Char → Option (List Char)
  | [], _, _, _, _ => none
  | ch :: rest, depth, inString, prev, acc =>
    if !(ejoToggle inString prev ch) && ch == '\x7b' then
      ejoLoop rest (depth + 1) (ejoToggle inString prev ch) (some ch) (ch :: acc)
    else if !(ejoToggle inString prev ch) && ch == '\x7d' then
      if depth - 1 == 0 then some (ch :: acc).reverse
      else ejoLoop rest (depth - 1) (ejoToggle inString prev ch) (some ch) (ch :: acc)
    else ejoLoop rest depth (ejoToggle inString prev ch) (some ch) (ch :: acc)

/-- `extractFirstJsonObject` from `route.ts`: scan from the first opening
brace, toggling the string state on every quote not preceded by a backslash,
and return the slice ending where the brace depth returns to zero. -/
def extractFirstJsonObject (input : String) : Option String :=
  let s := input.data.dropWhile (fun c => c ≠ '\x7b')
  match s with
  | [] => none
  | _ :: _ => (ejoLoop s 0 false none []).map String.mk

/-- State of the declarative prev-character scanner: running brace depth,
in-string flag, previous character. -/
structure JState where
  depth : Int
  inStr : Bool
  prev : Option Char

/-- One step of the declarative scanner: the string state is updated by the
prev-character rule first, and the brace count is then updated only when the
updated state is outside a string. -/
def jstep (st : JState) (c : Char) : JState :=
  ⟨if !(ejoToggle st.inStr st.prev c) && c == '\x7b' then st.depth + 1
    else if !(ejoToggle st.inStr st.prev c) && c == '\x7d' then st.depth - 1
    else st.depth,
   ejoToggle st.inStr st.prev c, some c⟩

/-- Index of the first position at which the running depth reaches zero. -/
def firstZero (st : JState) : List Char → Option Nat
  | [] => none
  | c :: rest =>
    if (jstep st c).depth = 0 then some 0
    else (firstZero (jstep st c) rest).map (· + 1)

/-- The first balanced delimited object under the prev-character string rule,
stated declaratively: the slice from the first opening brace through the
first position at which the depth returns to zero, `none` when there is no
such position. -/
def extractFirstJsonObjectSpec (input : String) : Option String :=
  match input.data.dropWhile (fun c => c ≠ '\x7b') with
  | [] => none
  | c :: rest =>
    (firstZero ⟨0, false, none⟩ (c :: rest)).map (fun n => String.mk ((c :: rest).take (n + 1)))

/-- Modelled from the spec: the escape-correct string-aware scanner the claim
describes, for comparison.  Inside a string literal a backslash escapes the
next character, so a quote preceded by an escaped backslash does end the
string; braces are counted only outside string literals.  State: depth,
in-string flag, pending-escape flag. -/
def jsonStep : Int × Bool × Bool → Char → Int × Bool × Bool
  | (depth, true, true), _ => (depth, true, false)
  | (depth, true, false), c =>
    if c == '\\' then (depth, true, true)
    else if c == '"' then (depth, false, false)
    else (depth, true, false)
  | (depth, false, _), c =>
    if c == '"' then (depth, true, false)
    else if c == '\x7b' then (depth + 1, false, false)
    else if c == '\x7d' then (depth - 1, false, false)
    else (depth, false, false)

/-- First zero-depth position of the escape-correct scanner. -/
def firstZeroJson (st : Int × Bool × Bool) : List Char → Option Nat
  | [] => none
  | c :: rest =>
    if (jsonStep st c).1 = 0 then some 0
    else (firstZeroJson (jsonStep st c) rest).map (· + 1)

/-- Modelled from the spec: balanced, string-aware extraction with correct
JSON escape lexing. -/
def extractFirstJsonObjectJson (input : String) : Option String :=
  match input.data.dropWhile (fun c => c ≠ '\x7b') with
  | [] => none
  | c :: rest =>
    (firstZeroJson (0, false, false) (c :: rest)).map
      (fun n => String.mk ((c :: rest).take (n + 1)))

/-- The tail `（表現調整）` of the sanitizer's placeholder, as characters. -/
def CLOSE : List Char := ['（', '表', '現', '調', '整', '）']

/-- The sanitizer's placeholder `※w（表現調整）` for a banned word `w`. -/
def WRAP (pat : List Char) : List Char := '※' :: (pat ++ CLOSE)

/-- The characters the placeholder wrapper is built from. -/
def SPECIALS : List Char := '※' :: CLOSE

/-- `w` contains no wrapper character. -/
def noSpecials (w : List Char) : Prop := ∀ c ∈ w, c ∉ SPECIALS

/-- The occurrence of `pat` at position `i` of `s` sits inside a placeholder:
it is immediately preceded by `※` and immediately followed by `（表現調整）`. -/
def WrappedAt (pat s : List Char) (i : Nat) : Prop :=
  ∃ j, i = j + 1 ∧ WRAP pat <+: s.drop j

/-- Every occurrence of `pat` in `s` sits inside a placeholder. -/
def AllWrapped (pat s : List Char) : Prop :=
  ∀ i, pat <+: s.drop i → WrappedAt pat s i

/-- Decomposition of one `replaceAll` pass: the scanned text is a sequence of
literal chunks, free of matches, separated by matches of `pat`; the output
replaces each match by `repl` and copies the chunks. -/
inductive RL (pat repl : List Char) : List Char → List Char → Prop where
  | last (u : List Char) (h : ∀ i, ¬ pat <+: u.drop i) : RL pat repl u u
  | step (u s' t' : List Char) (h : ∀ j, j < u.length → ¬ pat <+: (u ++ pat).drop j)
      (tail : RL pat repl s' t') : RL pat repl (u ++ (pat ++ s')) (u ++ (repl ++ t'))

/-- One pass of the sanitizer at the character level. -/
def sanitizePass (acc w : List Char) : List Char :=
  replaceListFuel w (WRAP w) acc.length acc

/-! ### Association-list toolkit -/

theorem lookupFact_eq_none_iff (f : Facts) (k : String) :
    lookupFact f k = none ↔ ∀ kv ∈ f, kv.1 ≠ k := by
  induction f with
  | nil => simp [lookupFact]
  | cons kv rest ih =>
    by_cases h : kv.1 = k
    · simp [lookupFact, h]
    · simp [lookupFact, h, ih]

theorem lookupFact_deleteFact_self (f : Facts) (k : String) :
    lookupFact (deleteFact f k) k = none := by
  rw [lookupFact_eq_none_iff]
  intro kv hkv
  have := List.of_mem_filter hkv
  simpa using this

theorem lookupFact_deleteFact_none (f : Facts) (k k' : String)
    (h : lookupFact f k = none) : lookupFact (deleteFact f k') k = none := by
  rw [lookupFact_eq_none_iff] at h ⊢
  intro kv hkv
  exact h kv (List.mem_of_mem_filter hkv)

theorem lookupFact_foldl_deleteFact_none (ks : List String) (f : Facts) (k : String)
    (h : lookupFact f k = none) : lookupFact (ks.foldl deleteFact f) k = none := by
  induction ks generalizing f with
  | nil => exact h
  | cons k' ks ih => exact ih _ (lookupFact_deleteFact_none f k k' h)

theorem lookupFact_foldl_deleteFact (ks : List String) (f : Facts) (k : String)
    (hk : k ∈ ks) : lookupFact (ks.foldl deleteFact f) k = none := by
  induction ks generalizing f with
  | nil => cases hk
  | cons k' ks ih =>
    rcases List.mem_cons.mp hk with h | h
    · subst h
      exact lookupFact_foldl_deleteFact_none ks _ k (lookupFact_deleteFact_self f k)
    · exact ih _ h

/-! ### C6 — fact-set form of the Scope Filter -/

/-- C6: at unit scope (`部屋`) the fact-set scope filter is the identity, and
at building scope (`棟`) no unit-only key remains in the resulting fact set,
whatever the input fact set. -/
theorem stripUnitOnlyFacts_spec (facts : Facts) :
    stripUnitOnlyFactsForBuildingScope facts Scope.unit = facts ∧
    ∀ k, k ∈ UNIT_ONLY_KEYS →
      lookupFact (stripUnitOnlyFactsForBuildingScope facts Scope.building) k = none := by
  constructor
  · simp [stripUnitOnlyFactsForBuildingScope]
  · intro k hk
    simpa [stripUnitOnlyFactsForBuildingScope] using
      lookupFact_foldl_deleteFact UNIT_ONLY_KEYS facts k hk

/-- Witness for C6 at a concrete fact set and the unit-only key `間取り`. -/
theorem stripUnitOnlyFacts_spec_witness :
    "間取り" ∈ UNIT_ONLY_KEYS ∧
    lookupFact (stripUnitOnlyFactsForBuildingScope
      [("間取り", "3LDK"), ("所在地", "東京都港区")] Scope.building) "間取り" = none := by
  refine ⟨by decide, ?_⟩
  exact (stripUnitOnlyFacts_spec [("間取り", "3LDK"), ("所在地", "東京都港区")]).2 "間取り" (by decide)

/-! ### C4 — Evidence Gate -/

/-- C4: the pipeline returns the fixed disclosure-only output exactly when the
count of non-blank fact values is strictly below `MIN_FACTS_FOR_GENERATION`
(= 3) — independently of the generated payload — and at a count of exactly 3
it proceeds to the generation path instead of short-circuiting. -/
theorem evidenceGate_boundary (f : Facts) (scope : Scope) (keys : List String)
    (payload : Option (List RawSection)) :
    (countFacts f < MIN_FACTS_FOR_GENERATION →
      pipelineAfterScope f scope keys payload = factOnlyOutput f scope) ∧
    (¬ countFacts f < MIN_FACTS_FOR_GENERATION →
      pipelineAfterScope f scope keys payload = generateFromPayload f scope keys payload) ∧
    (countFacts f = 3 →
      pipelineAfterScope f scope keys payload = generateFromPayload f scope keys payload) := by
  refine ⟨fun h => ?_, fun h => ?_, fun h => ?_⟩
  · simp [pipelineAfterScope, h]
  · simp [pipelineAfterScope, h]
  · simp [pipelineAfterScope, MIN_FACTS_FOR_GENERATION, h]

/-- Witness for C4: with exactly three non-blank facts (one value is pure
whitespace and does not count) the gate does not short-circuit. -/
theorem evidenceGate_boundary_witness :
    countFacts [("所在地", "東京都港区"), ("築年", "2001年"), ("備考", " "), ("最寄駅", "品川")] = 3 ∧
    pipelineAfterScope [("所在地", "東京都港区"), ("築年", "2001年"), ("備考", " "), ("最寄駅", "品川")]
        Scope.unit [] none =
      generateFromPayload [("所在地", "東京都港区"), ("築年", "2001年"), ("備考", " "), ("最寄駅", "品川")]
        Scope.unit [] none := by
  refine ⟨by decide, ?_⟩
  exact (evidenceGate_boundary _ Scope.unit [] none).2.2 (by decide)

/-! ### C1 / C2 — Grounding Validator -/

theorem validSentence_eq_some (allowed : List String) (fv : Facts) (s : RawSentence)
    (txt : String) (h : validSentence allowed fv s = some txt) :
    txt = jsTrim (s.text.getD "") ∧
    (s.keys.getD []).isEmpty = false ∧
    (s.keys.getD []).all (fun k => allowed.contains k) = true ∧
    (s.keys.getD []).any (fun k =>
      match lookupFact fv k with
      | some v => v ≠ "" && strIncludes txt v
      | none => false) = true := by
  unfold validSentence at h
  split at h
  next => exact Option.noConfusion h
  next h1 =>
  split at h
  next => exact Option.noConfusion h
  next h2 =>
  split at h
  next => exact Option.noConfusion h
  next h3 =>
  split at h
  next => exact Option.noConfusion h
  next h4 =>
  obtain rfl := (Option.some.inj h).symm
  refine ⟨rfl, by simpa using h1, by simpa using h2, by simpa using h3⟩

theorem validateSections_decomp (allowed : List String) (fv : Facts)
    (sections : List RawSection) (para : String)
    (hpara : para ∈ validateSections allowed fv sections) :
    ∃ txts : List String, txts ≠ [] ∧ para = String.join txts ∧
      ∀ txt ∈ txts, ∃ s : RawSentence, validSentence allowed fv s = some txt := by
  obtain ⟨sec, hsec, hval⟩ := List.mem_filterMap.mp hpara
  rcases hss : sec.sentences with _ | ss
  · rw [hss] at hval; cases hval
  rw [hss] at hval
  simp only at hval
  by_cases hvalid : (ss.filterMap (validSentence allowed fv)).isEmpty
  · simp [hvalid] at hval
  · simp only [hvalid, if_false, Bool.false_eq_true] at hval
    obtain rfl : para = String.join (ss.filterMap (validSentence allowed fv)) := by
      simpa using hval.symm
    refine ⟨ss.filterMap (validSentence allowed fv), by simpa using hvalid, rfl, ?_⟩
    intro txt htxt
    obtain ⟨s, hs, hsome⟩ := List.mem_filterMap.mp htxt
    exact ⟨s, hsome⟩

/-- C2: every sentence accepted by the grounding validator — whatever the
payload, including ones with missing or ill-typed fields — carries a
non-empty claimed-key list all of whose members are permitted keys; every
paragraph of the validator's output is built only from such sentences. -/
theorem groundingValidator_keys (allowed : List String) (fv : Facts)
    (sections : List RawSection) (para : String)
    (hpara : para ∈ validateSections allowed fv sections) :
    ∃ txts : List String, txts ≠ [] ∧ para = String.join txts ∧
      ∀ txt ∈ txts, ∃ s : RawSentence, validSentence allowed fv s = some txt ∧
        s.keys.getD [] ≠ [] ∧ ∀ k ∈ s.keys.getD [], k ∈ allowed := by
  obtain ⟨txts, hne, hjoin, hprop⟩ := validateSections_decomp allowed fv sections para hpara
  refine ⟨txts, hne, hjoin, ?_⟩
  intro txt htxt
  obtain ⟨s, hsome⟩ := hprop txt htxt
  obtain ⟨-, hne2, hall, -⟩ := validSentence_eq_some allowed fv s txt hsome
  refine ⟨s, hsome, by simpa using hne2, ?_⟩
  intro k hk
  have := List.all_eq_true.mp hall k hk
  simpa using this

/-- Witness for C2 at a concrete accepted payload. -/
theorem groundingValidator_keys_witness :
    "最寄駅は品川です。" ∈ validateSections ["最寄駅"] [("最寄駅", "品川")]
      [⟨some "access", some [⟨some "最寄駅は品川です。", some ["最寄駅"]⟩]⟩] ∧
    (∃ txts : List String, txts ≠ [] ∧ "最寄駅は品川です。" = String.join txts ∧
      ∀ txt ∈ txts, ∃ s : RawSentence,
        validSentence ["最寄駅"] [("最寄駅", "品川")] s = some txt ∧
        s.keys.getD [] ≠ [] ∧ ∀ k ∈ s.keys.getD [], k ∈ ["最寄駅"]) := by
  refine ⟨by decide, ?_⟩
  exact groundingValidator_keys ["最寄駅"] [("最寄駅", "品川")]
    [⟨some "access", some [⟨some "最寄駅は品川です。", some ["最寄駅"]⟩]⟩]
    "最寄駅は品川です。" (by decide)

/-- C1: every sentence accepted by the grounding validator contains, as an
exact substring of its text, the literal fact value of at least one of its
claimed keys; every paragraph of the validator's output is built only from
such sentences. -/
theorem groundingValidator_verbatim (allowed : List String) (fv : Facts)
    (sections : List RawSection) (para : String)
    (hpara : para ∈ validateSections allowed fv sections) :
    ∃ txts : List String, txts ≠ [] ∧ para = String.join txts ∧
      ∀ txt ∈ txts, ∃ s : RawSentence, validSentence allowed fv s = some txt ∧
        ∃ k v, k ∈ s.keys.getD [] ∧ lookupFact fv k = some v ∧ v ≠ "" ∧
          strIncludes txt v = true := by
  obtain ⟨txts, hne, hjoin, hprop⟩ := validateSections_decomp allowed fv sections para hpara
  refine ⟨txts, hne, hjoin, ?_⟩
  intro txt htxt
  obtain ⟨s, hsome⟩ := hprop txt htxt
  obtain ⟨-, -, -, hany⟩ := validSentence_eq_some allowed fv s txt hsome
  obtain ⟨k, hk, hkp⟩ := List.any_eq_true.mp hany
  refine ⟨s, hsome, k, ?_⟩
  rcases hv : lookupFact fv k with _ | v
  · rw [hv] at hkp; cases hkp
  · rw [hv] at hkp
    have hkp2 := (Bool.and_eq_true _ _).mp hkp
    exact ⟨v, hk, rfl, by simpa using hkp2.1, hkp2.2⟩

/-- Witness for C1 at a concrete accepted payload whose sentence reproduces
the fact value `2001年` verbatim. -/
theorem groundingValidator_verbatim_witness :
    "築年は2001年です。" ∈ validateSections ["築年"] [("築年", "2001年")]
      [⟨some "building", some [⟨some "築年は2001年です。", some ["築年"]⟩]⟩] ∧
    (∃ txts : List String, txts ≠ [] ∧ "築年は2001年です。" = String.join txts ∧
      ∀ txt ∈ txts, ∃ s : RawSentence,
        validSentence ["築年"] [("築年", "2001年")] s = some txt ∧
        ∃ k v, k ∈ s.keys.getD [] ∧ lookupFact [("築年", "2001年")] k = some v ∧ v ≠ "" ∧
          strIncludes txt v = true) := by
  refine ⟨by decide, ?_⟩
  exact groundingValidator_verbatim ["築年"] [("築年", "2001年")]
    [⟨some "building", some [⟨some "築年は2001年です。", some ["築年"]⟩]⟩]
    "築年は2001年です。" (by decide)

/-! ### C5 — total grounding failure falls back to the disclosure output -/

theorem intercalate_go_pfx (s : String) (as : List String) (acc : String) :
    acc.data <+: (String.intercalate.go acc s as).data := by
  induction as generalizing acc with
  | nil => simp [String.intercalate.go]
  | cons a as ih =>
    refine List.IsPrefix.trans ?_ (ih (acc ++ s ++ a))
    simp only [String.data_append]
    rw [List.append_assoc]
    exact List.prefix_append _ _

theorem intercalate_head_pfx (s a : String) (as : List String) :
    a.data <+: (String.intercalate s (a :: as)).data := by
  simpa [String.intercalate] using intercalate_go_pfx s as a

theorem factOnlyOutput_ne_empty (f : Facts) (scope : Scope) :
    factOnlyOutput f scope ≠ "" := by
  have hp : ("【生成停止：情報が不足しています】" : String).data <+: (factOnlyOutput f scope).data := by
    simp only [factOnlyOutput]
    exact intercalate_head_pfx _ _ _
  intro h
  rw [h] at hp
  have hnil : ("【生成停止：情報が不足しています】" : String).data = [] :=
    List.prefix_nil.mp hp
  exact absurd hnil (by decide)

/-- C5: when the evidence gate was passed but no sentence of the structured
payload survives validation in any section, the pipeline returns exactly the
evidence gate's fixed disclosure-only output, which is never the empty
string. -/
theorem totalGroundingFailure_disclosure (f : Facts) (scope : Scope) (keys : List String)
    (sections : List RawSection)
    (hev : MIN_FACTS_FOR_GENERATION ≤ countFacts f)
    (hfail : validateSections (allowedKeysOf f) (factValuesOf f) sections = []) :
    pipelineAfterScope f scope keys (some sections) = factOnlyOutput f scope ∧
    pipelineAfterScope f scope keys (some sections) ≠ "" := by
  have hpipe : pipelineAfterScope f scope keys (some sections) = factOnlyOutput f scope := by
    simp [pipelineAfterScope, Nat.not_lt.mpr hev, generateFromPayload, hfail]
  exact ⟨hpipe, hpipe ▸ factOnlyOutput_ne_empty f scope⟩

/-- Witness for C5: three facts pass the gate, but the single generated
sentence claims a non-permitted key, so nothing survives and the disclosure
output is returned. -/
theorem totalGroundingFailure_disclosure_witness :
    MIN_FACTS_FOR_GENERATION ≤
      countFacts [("所在地", "東京都港区"), ("築年", "2001年"), ("最寄駅", "品川")] ∧
    validateSections
      (allowedKeysOf [("所在地", "東京都港区"), ("築年", "2001年"), ("最寄駅", "品川")])
      (factValuesOf [("所在地", "東京都港区"), ("築年", "2001年"), ("最寄駅", "品川")])
      [⟨some "intro", some [⟨some "素晴らしい物件です。", some ["眺望"]⟩]⟩] = [] ∧
    pipelineAfterScope [("所在地", "東京都港区"), ("築年", "2001年"), ("最寄駅", "品川")]
        Scope.unit ["所在地"]
        (some [⟨some "intro", some [⟨some "素晴らしい物件です。", some ["眺望"]⟩]⟩]) =
      factOnlyOutput [("所在地", "東京都港区"), ("築年", "2001年"), ("最寄駅", "品川")] Scope.unit := by
  refine ⟨by decide, by decide, ?_⟩
  exact (totalGroundingFailure_disclosure _ Scope.unit ["所在地"] _ (by decide) (by decide)).1

/-! ### C3 — Fact Merger -/

theorem lookupFact_cons (kv : String × String) (f : Facts) (k : String) :
    lookupFact (kv :: f) k = if kv.1 = k then some kv.2 else lookupFact f k := rfl

theorem lookupFact_some_mem {f : Facts} {k v : String}
    (h : lookupFact f k = some v) : ∃ kv ∈ f, kv.1 = k ∧ kv.2 = v := by
  induction f with
  | nil => cases h
  | cons kv rest ih =>
    rw [lookupFact_cons] at h
    by_cases hk : kv.1 = k
    · rw [if_pos hk] at h
      exact ⟨kv, List.mem_cons_self _ _, hk, Option.some.inj h⟩
    · rw [if_neg hk] at h
      obtain ⟨kv', hkv', hp⟩ := ih h
      exact ⟨kv', List.mem_cons_of_mem _ hkv', hp⟩

theorem lookupFact_setFact_self (f : Facts) (k v : String) :
    lookupFact (setFact f k v) k = some v := by
  induction f with
  | nil => simp [setFact, lookupFact]
  | cons kv rest ih =>
    by_cases hk : kv.1 = k
    · simp [setFact, hk, lookupFact]
    · simp [setFact, hk, lookupFact, ih]

theorem lookupFact_setFact_ne (f : Facts) (k v k' : String) (h : k' ≠ k) :
    lookupFact (setFact f k v) k' = lookupFact f k' := by
  induction f with
  | nil => simp [setFact, lookupFact, Ne.symm h]
  | cons kv rest ih =>
    by_cases hk : kv.1 = k
    · rw [setFact, if_pos hk, lookupFact_cons, lookupFact_cons,
        if_neg (fun hh => h hh.symm), if_neg (fun hh => h (hk ▸ hh).symm)]
    · rw [setFact, if_neg hk, lookupFact_cons, lookupFact_cons, ih]

theorem mem_setFact {f : Facts} {k v : String} {kv : String × String}
    (h : kv ∈ setFact f k v) : kv ∈ f ∨ kv = (k, v) := by
  induction f with
  | nil => right; simpa [setFact] using h
  | cons kv0 rest ih =>
    by_cases hk : kv0.1 = k
    · rw [setFact, if_pos hk] at h
      rcases List.mem_cons.mp h with h | h
      · exact Or.inr h
      · exact Or.inl (List.mem_cons_of_mem _ h)
    · rw [setFact, if_neg hk] at h
      rcases List.mem_cons.mp h with h | h
      · exact Or.inl (h ▸ List.mem_cons_self _ _)
      · rcases ih h with h | h
        · exact Or.inl (List.mem_cons_of_mem _ h)
        · exact Or.inr h

theorem mem_mergeStep {f : Facts} {kv0 : String × String} {kv : String × String}
    (h : kv ∈ mergeStep f kv0) : kv ∈ f ∨ kv = (kv0.1, kv0.2) := by
  unfold mergeStep at h
  split at h
  · exact Or.inl h
  · split at h
    · exact mem_setFact h
    · split at h
      · exact mem_setFact h
      · split at h
        · exact mem_setFact h
        · exact Or.inl h

theorem lookupFact_mergeStep_ne (f : Facts) (kv0 : String × String) (k : String)
    (h : k ≠ kv0.1) : lookupFact (mergeStep f kv0) k = lookupFact f k := by
  unfold mergeStep
  split
  · rfl
  · split
    · exact lookupFact_setFact_ne f kv0.1 kv0.2 k h
    · split
      · exact lookupFact_setFact_ne f kv0.1 kv0.2 k h
      · split
        · exact lookupFact_setFact_ne f kv0.1 kv0.2 k h
        · rfl

theorem lookupFact_mergeStep_self (f : Facts) (kv0 : String × String)
    (hv : kv0.2 ≠ "") (hf : ∀ kv ∈ f, kv.2 ≠ "") :
    lookupFact (mergeStep f kv0) kv0.1 =
      match lookupFact f kv0.1 with
      | none => some kv0.2
      | some cur => some (if cur.length < kv0.2.length then kv0.2 else cur) := by
  unfold mergeStep
  rw [if_neg (by simpa using hv)]
  rcases hcur : lookupFact f kv0.1 with _ | cur
  · dsimp only
    simp [lookupFact_setFact_self]
  · obtain ⟨kv, hkv, -, hv2⟩ := lookupFact_some_mem hcur
    have hcne : cur ≠ "" := hv2 ▸ hf kv hkv
    dsimp only
    rw [if_neg (by simpa using hcne)]
    by_cases hlen : cur.length < kv0.2.length
    · simp [hlen, lookupFact_setFact_self]
    · simp [hlen, hcur]

/-- C3 as frozen is refuted: merging `k ↦ "ab"` (trimmed length 2) with
`k ↦ " c "` (raw length 3, trimmed length 1) keeps `" c "`, because
`mergeFacts` compares raw lengths, not lengths after trimming. -/
theorem mergeFacts_counterexample :
    lookupFact (mergeFacts [("k", "ab")] [("k", " c ")]) "k" = some " c " ∧
    " c " ≠ "ab" ∧ (jsTrim " c ").length < (jsTrim "ab").length := by decide

/-- C3 amended: for fact sets with duplicate-free keys and non-empty values,
the merged value of a key present in both inputs is whichever value is
longer by raw (untrimmed) character count, the base value winning ties; a
key present in only one input keeps that input's value, a key absent from
both is absent from the result, and no key of the result maps to the empty
string. -/
theorem mergeFacts_spec (F1 F2 : Facts)
    (h1 : ∀ kv ∈ F1, kv.2 ≠ "") (h2 : ∀ kv ∈ F2, kv.2 ≠ "")
    (n2 : (F2.map Prod.fst).Nodup) (k : String) :
    lookupFact (mergeFacts F1 F2) k =
      (match lookupFact F1 k, lookupFact F2 k with
      | none, none => none
      | some v, none => some v
      | none, some v => some v
      | some v1, some v2 => some (if v1.length < v2.length then v2 else v1)) ∧
    ∀ v, lookupFact (mergeFacts F1 F2) k = some v → v ≠ "" := by
  have main : lookupFact (mergeFacts F1 F2) k =
      (match lookupFact F1 k, lookupFact F2 k with
      | none, none => none
      | some v, none => some v
      | none, some v => some v
      | some v1, some v2 => some (if v1.length < v2.length then v2 else v1)) := by
    induction F2 generalizing F1 with
    | nil =>
      show lookupFact F1 k = _
      rcases lookupFact F1 k with _ | v <;> simp [lookupFact, List.find?]
    | cons kv0 rest ih =>
      have hstep : mergeFacts F1 (kv0 :: rest) = mergeFacts (mergeStep F1 kv0) rest := rfl
      have h1' : ∀ kv ∈ mergeStep F1 kv0, kv.2 ≠ "" := by
        intro kv hkv
        rcases mem_mergeStep hkv with h | h
        · exact h1 kv h
        · rw [h]; exact h2 kv0 (List.mem_cons_self _ _)
      have h2' : ∀ kv ∈ rest, kv.2 ≠ "" := fun kv hkv => h2 kv (List.mem_cons_of_mem _ hkv)
      have hn2' : (rest.map Prod.fst).Nodup := (List.nodup_cons.mp n2).2
      rw [hstep, ih (mergeStep F1 kv0) h1' h2' hn2']
      by_cases hk : k = kv0.1
      · rw [hk]
        have hrest : lookupFact rest kv0.1 = none := by
          rw [lookupFact_eq_none_iff]
          intro kv hkv hkk
          exact (List.nodup_cons.mp n2).1 (hkk ▸ List.mem_map_of_mem Prod.fst hkv)
        rw [lookupFact_mergeStep_self F1 kv0 (h2 kv0 (List.mem_cons_self _ _)) h1, hrest,
          lookupFact_cons, if_pos rfl]
        rcases lookupFact F1 kv0.1 with _ | cur <;> simp
      · rw [lookupFact_mergeStep_ne F1 kv0 k hk, lookupFact_cons, if_neg (fun hh => hk hh.symm)]
  refine ⟨main, ?_⟩
  intro v hv
  rw [main] at hv
  rcases hl1 : lookupFact F1 k with _ | v1 <;> rcases hl2 : lookupFact F2 k with _ | v2 <;>
    rw [hl1, hl2] at hv
  · cases hv
  · obtain ⟨kv, hkv, -, hveq⟩ := lookupFact_some_mem hl2
    cases hv; exact hveq ▸ h2 kv hkv
  · obtain ⟨kv, hkv, -, hveq⟩ := lookupFact_some_mem hl1
    cases hv; exact hveq ▸ h1 kv hkv
  · obtain ⟨kv1, hkv1, -, hveq1⟩ := lookupFact_some_mem hl1
    obtain ⟨kv2, hkv2, -, hveq2⟩ := lookupFact_some_mem hl2
    cases hv
    by_cases hlen : v1.length < v2.length
    · rw [if_pos hlen]; exact hveq2 ▸ h2 kv2 hkv2
    · rw [if_neg hlen]; exact hveq1 ▸ h1 kv1 hkv1

/-- Witness for C3 (amended): a longer raw value from the second set
overrides, an equal-length value does not, and one-sided keys survive. -/
theorem mergeFacts_spec_witness :
    (∀ kv ∈ [("所在地", "東京"), ("築年", "2001")], kv.2 ≠ ("" : String)) ∧
    lookupFact (mergeFacts [("所在地", "東京"), ("築年", "2001")]
      [("所在地", "東京都港区"), ("最寄駅", "品川")]) "所在地" = some "東京都港区" ∧
    lookupFact (mergeFacts [("所在地", "東京"), ("築年", "2001")]
      [("所在地", "東京都港区"), ("最寄駅", "品川")]) "最寄駅" = some "品川" ∧
    lookupFact (mergeFacts [("所在地", "東京"), ("築年", "2001")]
      [("所在地", "東京都港区"), ("最寄駅", "品川")]) "間取り" = none := by
  refine ⟨by decide, ?_, ?_, ?_⟩
  · have := (mergeFacts_spec [("所在地", "東京"), ("築年", "2001")]
      [("所在地", "東京都港区"), ("最寄駅", "品川")]
      (by decide) (by decide) (by decide) "所在地").1
    rw [this]; decide
  · have := (mergeFacts_spec [("所在地", "東京"), ("築年", "2001")]
      [("所在地", "東京都港区"), ("最寄駅", "品川")]
      (by decide) (by decide) (by decide) "最寄駅").1
    rw [this]; decide
  · have := (mergeFacts_spec [("所在地", "東京"), ("築年", "2001")]
      [("所在地", "東京都港区"), ("最寄駅", "品川")]
      (by decide) (by decide) (by decide) "間取り").1
    rw [this]; decide

/-! ### C9 — text form of the Scope Filter -/

theorem rdropWhile_fixed_of_dropWhile (s : List Char) :
    List.rdropWhile isJsWs ((s.rdropWhile isJsWs).dropWhile isJsWs) =
      (s.rdropWhile isJsWs).dropWhile isJsWs := by
  rw [List.rdropWhile_eq_self_iff]
  intro hl
  obtain ⟨t, ht⟩ := List.dropWhile_suffix (l := s.rdropWhile isJsWs) isJsWs
  have hne : s.rdropWhile isJsWs ≠ [] :=
    fun h0 => hl (List.append_eq_nil.mp (ht.trans h0)).2
  have h1 : ((s.rdropWhile isJsWs).dropWhile isJsWs).getLast? =
      (s.rdropWhile isJsWs).getLast? := by
    conv_rhs => rw [← ht]
    rw [List.getLast?_append, List.getLast?_eq_getLast _ hl]
    rfl
  rw [List.getLast?_eq_getLast _ hl, List.getLast?_eq_getLast _ hne] at h1
  rw [Option.some.inj h1]
  exact List.rdropWhile_last_not isJsWs s hne

theorem trimChars_idem (s : List Char) : trimChars (trimChars s) = trimChars s := by
  show ((trimChars s).rdropWhile isJsWs).dropWhile isJsWs = trimChars s
  rw [show trimChars s = (s.rdropWhile isJsWs).dropWhile isJsWs from rfl,
    rdropWhile_fixed_of_dropWhile, List.dropWhile_idempotent]

theorem jsTrim_idem (s : String) : jsTrim (jsTrim s) = jsTrim s := by
  unfold jsTrim
  rw [show (String.mk (trimChars s.data)).data = trimChars s.data from rfl, trimChars_idem]

/-- C9 as frozen is refuted: on the non-empty input `" \n間取り。"` at building
scope the only keyword-free sentence `" \n"` trims to nothing, the fallback
first sentence `" \n"` also trims to nothing, and the function returns the
empty string. -/
theorem stripUnitOnlySentences_counterexample :
    (" \n間取り。" : String) ≠ "" ∧
    stripUnitOnlySentences " \n間取り。" Scope.building = "" := by
  constructor
  · decide
  · decide

/-- C9 amended: at building scope the text is split at `。` or newline with
the delimiter kept on the preceding sentence, every sentence containing a
unit-only keyword is discarded and the survivors are rejoined and trimmed;
when the rejoined survivors trim to the empty string (in particular when
every sentence is discarded) the trimmed first original sentence is returned
instead, so the result is non-empty for every input whose first sentence
contains a non-whitespace character — but it can be empty when the first
sentence is pure whitespace.  At unit scope the filter is the identity. -/
theorem stripUnitOnlySentences_spec (text : String)
    (h : jsTrim ((splitKeepAfter unitSentenceDelim text).headD "") ≠ "") :
    stripUnitOnlySentences text Scope.building ≠ "" ∧
    (jsTrim (String.join ((splitKeepAfter unitSentenceDelim text).filter keepsSentence)) ≠ "" →
      stripUnitOnlySentences text Scope.building =
        jsTrim (String.join ((splitKeepAfter unitSentenceDelim text).filter keepsSentence))) ∧
    (jsTrim (String.join ((splitKeepAfter unitSentenceDelim text).filter keepsSentence)) = "" →
      stripUnitOnlySentences text Scope.building =
        jsTrim ((splitKeepAfter unitSentenceDelim text).headD "")) ∧
    stripUnitOnlySentences text Scope.unit = text := by
  have hb : stripUnitOnlySentences text Scope.building =
      jsTrim (if jsTrim (String.join ((splitKeepAfter unitSentenceDelim text).filter
          keepsSentence)) ≠ "" then
        jsTrim (String.join ((splitKeepAfter unitSentenceDelim text).filter keepsSentence))
      else (splitKeepAfter unitSentenceDelim text).headD "") := by
    simp [stripUnitOnlySentences]
  by_cases hkept : jsTrim (String.join ((splitKeepAfter unitSentenceDelim text).filter
      keepsSentence)) = ""
  · have hres : stripUnitOnlySentences text Scope.building =
        jsTrim ((splitKeepAfter unitSentenceDelim text).headD "") := by
      rw [hb, if_neg (not_not_intro hkept)]
    exact ⟨hres ▸ h, fun hc => absurd hkept hc, fun _ => hres, by simp [stripUnitOnlySentences]⟩
  · have hres : stripUnitOnlySentences text Scope.building =
        jsTrim (String.join ((splitKeepAfter unitSentenceDelim text).filter keepsSentence)) := by
      rw [hb, if_pos hkept, jsTrim_idem]
    exact ⟨hres ▸ hkept, fun _ => hres, fun hc => absurd hc hkept,
      by simp [stripUnitOnlySentences]⟩

/-- Witness for C9 (amended): an input whose every sentence holds a unit-only
keyword falls back to its (non-whitespace) first sentence, and a mixed input
keeps exactly its keyword-free sentences. -/
theorem stripUnitOnlySentences_spec_witness :
    jsTrim ((splitKeepAfter unitSentenceDelim "間取りは3LDK。").headD "") ≠ "" ∧
    stripUnitOnlySentences "間取りは3LDK。" Scope.building ≠ "" ∧
    stripUnitOnlySentences "立地は良い。間取りは3LDK。" Scope.building = "立地は良い。" := by
  refine ⟨by decide, (stripUnitOnlySentences_spec "間取りは3LDK。" (by decide)).1, by decide⟩

/-! ### C10 — the must-include addendum is appended after sanitization -/

/-- C10: in the success path, sanitization runs before `enforceMustInclude`,
so a must-include fact value containing a banned word that is absent from the
validated text reaches the final response bare: with facts
`所在地 ↦ 東京都港区, 築年 ↦ 2001年, 管理体制 ↦ 最高`, must-include key
`管理体制` and a validated sentence not mentioning `最高`, the final text
contains the banned word `最高` but no `※最高（表現調整）` placeholder. -/
theorem mustInclude_addendum_unsanitized :
    generateFromPayload [("所在地", "東京都港区"), ("築年", "2001年"), ("管理体制", "最高")]
        Scope.unit ["管理体制"]
        (some [⟨some "intro", some [⟨some "所在地は東京都港区です。", some ["所在地"]⟩]⟩]) =
      "所在地は東京都港区です。\n\n【情報の明示（抽出値）】\n・管理体制：最高" ∧
    "最高" ∈ BANNED_WORDS ∧
    strIncludes "所在地は東京都港区です。" "最高" = false ∧
    strIncludes "所在地は東京都港区です。\n\n【情報の明示（抽出値）】\n・管理体制：最高" "最高" = true ∧
    strIncludes "所在地は東京都港区です。\n\n【情報の明示（抽出値）】\n・管理体制：最高"
      "※最高（表現調整）" = false := by
  refine ⟨by decide, by decide, by decide, by decide, by decide⟩

/-! ### C8 — balanced, string-aware object extraction -/

/-- C8 as frozen is refuted: on the input `\x7b"a":"\\"\x7d` (a JSON object
whose string value is a single escaped backslash) a balanced, string-aware
object exists — the escape-correct scanner returns the whole input — but
`extractFirstJsonObject` treats the closing quote after the escaped
backslash as itself escaped, never leaves the string state, and returns
`none`. -/
theorem extractFirstJsonObject_counterexample :
    extractFirstJsonObject "\x7b\"a\":\"\\\\\"\x7d" = none ∧
    extractFirstJsonObjectJson "\x7b\"a\":\"\\\\\"\x7d" = some "\x7b\"a\":\"\\\\\"\x7d" := by
  constructor
  · decide
  · decide

theorem ejoLoop_cons (c : Char) (rest : List Char) (d : Int) (i : Bool) (p : Option Char)
    (acc : List Char) (hd : 1 ≤ d) :
    ejoLoop (c :: rest) d i p acc =
      if (jstep ⟨d, i, p⟩ c).depth = 0 then some (acc.reverse ++ [c])
      else ejoLoop rest (jstep ⟨d, i, p⟩ c).depth (jstep ⟨d, i, p⟩ c).inStr
        (jstep ⟨d, i, p⟩ c).prev (c :: acc) := by
  by_cases hb1 : (!(ejoToggle i p c) && c == '\x7b') = true
  · have hj : (jstep ⟨d, i, p⟩ c).depth = d + 1 := by simp [jstep, hb1]
    rw [ejoLoop, if_pos hb1, hj, if_neg (by omega)]
    simp [jstep, hb1]
  · by_cases hb2 : (!(ejoToggle i p c) && c == '\x7d') = true
    · have hj : (jstep ⟨d, i, p⟩ c).depth = d - 1 := by simp [jstep, hb1, hb2]
      rw [ejoLoop, if_neg (by simpa using hb1), if_pos hb2, hj]
      by_cases hz : d - 1 = 0
      · rw [if_pos (by simpa using hz), if_pos hz, List.reverse_cons]
      · rw [if_neg (by simpa using hz), if_neg hz]
        simp [jstep, hb1, hb2]
    · have hj : (jstep ⟨d, i, p⟩ c).depth = d := by simp [jstep, hb1, hb2]
      rw [ejoLoop, if_neg (by simpa using hb1), if_neg (by simpa using hb2), hj,
        if_neg (by omega)]
      simp [jstep, hb1, hb2]

theorem firstZero_cons (st : JState) (c : Char) (rest : List Char) :
    firstZero st (c :: rest) =
      if (jstep st c).depth = 0 then some 0
      else (firstZero (jstep st c) rest).map (· + 1) := rfl

theorem ejoLoop_eq_firstZero (cs : List Char) : ∀ (st : JState) (acc : List Char),
    1 ≤ st.depth →
    ejoLoop cs st.depth st.inStr st.prev acc =
      (firstZero st cs).map (fun n => acc.reverse ++ cs.take (n + 1)) := by
  induction cs with
  | nil => intro st acc hd; rfl
  | cons c rest ih =>
    intro st acc hd
    obtain ⟨d, i, p⟩ := st
    rw [ejoLoop_cons c rest d i p acc hd, firstZero_cons]
    by_cases hz : (jstep ⟨d, i, p⟩ c).depth = 0
    · rw [if_pos hz, if_pos hz]
      simp
    · rw [if_neg hz, if_neg hz]
      have hd0 : (1 : Int) ≤ d := hd
      have hd1 : 1 ≤ (jstep ⟨d, i, p⟩ c).depth := by
        have hcase : (jstep ⟨d, i, p⟩ c).depth = d + 1 ∨ (jstep ⟨d, i, p⟩ c).depth = d - 1 ∨
            (jstep ⟨d, i, p⟩ c).depth = d := by
          unfold jstep
          dsimp only
          split
          · exact Or.inl rfl
          · split
            · exact Or.inr (Or.inl rfl)
            · exact Or.inr (Or.inr rfl)
        omega
      have hrec := ih (jstep ⟨d, i, p⟩ c) (c :: acc) hd1
      have hprev : (jstep ⟨d, i, p⟩ c).prev = some c := rfl
      rw [hprev] at hrec ⊢
      rw [hrec, Option.map_map]
      refine congrArg (fun g => Option.map g (firstZero (jstep ⟨d, i, p⟩ c) rest)) ?_
      funext n
      simp [List.take_succ_cons]

/-- C8 amended: `extractFirstJsonObject` returns the substring of its input
from the first `\x7b` through the first position at which the brace depth,
counted only outside string literals, returns to zero, and `none` when no
such position exists — where a quote is treated as escaped whenever the
immediately preceding character is a backslash, even a backslash that is
itself escaped (so, unlike under JSON lexing, a string value ending in an
escaped backslash is not closed by its quote). -/
theorem extractFirstJsonObject_eq_spec (input : String) :
    extractFirstJsonObject input = extractFirstJsonObjectSpec input := by
  unfold extractFirstJsonObject extractFirstJsonObjectSpec
  rcases hs : input.data.dropWhile (fun c => c ≠ '\x7b') with _ | ⟨c, rest⟩
  · rfl
  · have hc : c = '\x7b' := by
      have hw : input.data.dropWhile (fun c => c ≠ '\x7b') ≠ [] := by rw [hs]; simp
      have hnot := List.head_dropWhile_not (fun c => c ≠ '\x7b') input.data hw
      have hhead : (input.data.dropWhile (fun c => c ≠ '\x7b')).head hw = c := by
        have h2 : (input.data.dropWhile (fun c => c ≠ '\x7b')).head? = some c := by
          rw [hs]; rfl
        rw [List.head?_eq_head hw] at h2
        exact Option.some.inj h2
      rw [hhead] at hnot
      simpa using hnot
    subst hc
    dsimp only
    have hstep1 : ejoLoop ('\x7b' :: rest) 0 false none [] =
        ejoLoop rest 1 false (some '\x7b') ['\x7b'] := by
      have hb1 : (!(ejoToggle false none '\x7b') && '\x7b' == '\x7b') = true := by decide
      rw [ejoLoop, if_pos hb1, show ejoToggle false none '\x7b' = false from by decide]
      norm_num
    have hj1 : jstep ⟨0, false, none⟩ '\x7b' = ⟨1, false, some '\x7b'⟩ := rfl
    have hfz : firstZero ⟨0, false, none⟩ ('\x7b' :: rest) =
        (firstZero ⟨1, false, some '\x7b'⟩ rest).map (· + 1) := by
      rw [firstZero_cons, hj1]
      norm_num
    have hmain := ejoLoop_eq_firstZero rest ⟨1, false, some '\x7b'⟩ ['\x7b'] (by norm_num)
    simp only at hmain
    rw [hstep1, hmain, hfz, Option.map_map, Option.map_map]
    refine congrArg (fun g => Option.map g (firstZero ⟨1, false, some '\x7b'⟩ rest)) ?_
    funext n
    simp [List.take_succ_cons]

/-- Witness for C8 (amended) at an input with leading and trailing noise and
a quoted closing brace inside the object. -/
theorem extractFirstJsonObject_eq_spec_witness :
    extractFirstJsonObject "noise \x7b\"a\":\"x\x7dy\"\x7d tail" =
      extractFirstJsonObjectSpec "noise \x7b\"a\":\"x\x7dy\"\x7d tail" ∧
    extractFirstJsonObject "noise \x7b\"a\":\"x\x7dy\"\x7d tail" =
      some "\x7b\"a\":\"x\x7dy\"\x7d" := by
  exact ⟨extractFirstJsonObject_eq_spec "noise \x7b\"a\":\"x\x7dy\"\x7d tail", by decide⟩

/-! ### C7 — Sanitizer: banned words only ever appear inside placeholders -/

theorem pfx_drop_getElem {p l : List Char} {i k : Nat} (h : p <+: l.drop i)
    (hk : k < p.length) : l[i + k]? = p[k]? := by
  obtain ⟨r, hr⟩ := h
  rw [← List.getElem?_drop, ← hr, List.getElem?_append_left hk]

theorem occ_char {p l : List Char} {i m : Nat} (h : p <+: l.drop i) (h1 : i ≤ m)
    (h2 : m < i + p.length) : l[m]? = p[m - i]? := by
  have hk : m - i < p.length := by omega
  have hg := pfx_drop_getElem h hk
  rwa [show i + (m - i) = m by omega] at hg

theorem occ_char_mem {p l : List Char} {i m : Nat} {c : Char} (h : p <+: l.drop i)
    (h1 : i ≤ m) (h2 : m < i + p.length) (hc : l[m]? = some c) : c ∈ p :=
  List.getElem?_mem ((occ_char h h1 h2).symm.trans hc)

theorem pfx_of_pfx_append {p a b : List Char} (h : p <+: a ++ b)
    (hlen : p.length ≤ a.length) : p <+: a := by
  rw [List.prefix_iff_eq_take, List.take_append_of_le_length hlen] at h
  rw [h]
  exact List.take_prefix _ _

theorem pfx_drop_append_left {p a b : List Char} {i : Nat} (h : p <+: (a ++ b).drop i)
    (hfit : i + p.length ≤ a.length) : p <+: a.drop i := by
  rw [List.drop_append_of_le_length (by omega)] at h
  exact pfx_of_pfx_append h (by rw [List.length_drop]; omega)

theorem pfx_drop_append_right {p a b : List Char} {i : Nat} (h : p <+: (a ++ b).drop i)
    (hge : a.length ≤ i) : p <+: b.drop (i - a.length) := by
  rwa [show i = a.length + (i - a.length) by omega, List.drop_append] at h

theorem occ_cases2 {p a b : List Char} {i : Nat} (h : p <+: (a ++ b).drop i) :
    (i + p.length ≤ a.length ∧ p <+: a.drop i) ∨
    (i < a.length ∧ a.length < i + p.length) ∨
    (a.length ≤ i ∧ p <+: b.drop (i - a.length)) := by
  by_cases h1 : a.length ≤ i
  · exact Or.inr (Or.inr ⟨h1, pfx_drop_append_right h h1⟩)
  · by_cases h2 : i + p.length ≤ a.length
    · exact Or.inl ⟨h2, pfx_drop_append_left h h2⟩
    · exact Or.inr (Or.inl ⟨by omega, by omega⟩)

theorem WRAP_length (pat : List Char) : (WRAP pat).length = pat.length + 7 := by
  simp [WRAP, CLOSE]

theorem WRAP_getElem_zero (pat : List Char) : (WRAP pat)[0]? = some '※' := by
  show ('※' :: (pat ++ CLOSE))[0]? = some '※'
  simp

theorem WRAP_getElem_close {q : List Char} {m : Nat} (h1 : q.length + 1 ≤ m)
    (h2 : m < q.length + 7) : ∃ c ∈ CLOSE, (WRAP q)[m]? = some c := by
  have hm : m - 1 - q.length < CLOSE.length := by simp [CLOSE]; omega
  refine ⟨CLOSE.get ⟨m - 1 - q.length, hm⟩, List.get_mem CLOSE _ hm, ?_⟩
  have e1 : (WRAP q)[m]? = (q ++ CLOSE)[m - 1]? := by
    show ('※' :: (q ++ CLOSE))[m]? = _
    rw [show m = (m - 1) + 1 by omega]
    exact List.getElem?_cons_succ
  have e2 : (q ++ CLOSE)[m - 1]? = CLOSE[m - 1 - q.length]? :=
    List.getElem?_append_right (by omega)
  have e3 : CLOSE[m - 1 - q.length]? = some (CLOSE.get ⟨m - 1 - q.length, hm⟩) := by
    rw [List.getElem?_eq_getElem hm, List.get_eq_getElem]
  exact (e1.trans e2).trans e3

theorem boundary_head {u rest : List Char} {pat : List Char} :
    (u ++ (WRAP pat ++ rest))[u.length]? = some '※' := by
  rw [List.getElem?_append_right (Nat.le_refl _), Nat.sub_self]
  show (('※' :: (pat ++ CLOSE)) ++ rest)[0]? = some '※'
  simp

theorem boundary_close {u r : List Char} {p : List Char} {m : Nat}
    (h1 : p.length + 1 ≤ m) (h2 : m < p.length + 7) :
    ∃ c ∈ CLOSE, (u ++ (WRAP p ++ r))[u.length + m]? = some c := by
  obtain ⟨c, hc, hg⟩ := WRAP_getElem_close h1 h2
  refine ⟨c, hc, ?_⟩
  rw [List.getElem?_append_right (by omega), show u.length + m - u.length = m by omega,
    List.getElem?_append_left (by rw [WRAP_length]; omega), hg]

theorem sp_mark : '※' ∈ SPECIALS := by decide

theorem sp_of_close {c : Char} (h : c ∈ CLOSE) : c ∈ SPECIALS :=
  List.mem_cons_of_mem _ h

theorem occ_in_WRAP {pat q : List Char} (hq : q ≠ []) (hqs : noSpecials q) {m : Nat}
    (h : q <+: (WRAP pat).drop m) (hfit : m + q.length ≤ (WRAP pat).length) :
    1 ≤ m ∧ m - 1 + q.length ≤ pat.length ∧ q <+: pat.drop (m - 1) := by
  have hqlen : 0 < q.length := List.length_pos.mpr hq
  rcases Nat.eq_zero_or_pos m with hm | hm
  · exfalso
    subst hm
    have hc : '※' ∈ q := occ_char_mem h (Nat.le_refl 0) (by omega) (WRAP_getElem_zero pat)
    exact hqs '※' hc sp_mark
  · have h' : q <+: (pat ++ CLOSE).drop (m - 1) := by
      have hsh : WRAP pat = ['※'] ++ (pat ++ CLOSE) := rfl
      rw [hsh, show m = (['※'] : List Char).length + (m - 1) by simp; omega,
        List.drop_append] at h
      exact h
    rw [WRAP_length] at hfit
    rcases occ_cases2 h' with ⟨hfit2, hin⟩ | ⟨g1, g2⟩ | ⟨hge, hin⟩
    · exact ⟨hm, by omega, hin⟩
    · exfalso
      have hc : (pat ++ CLOSE)[pat.length]? = some '（' := by
        rw [List.getElem?_append_right (Nat.le_refl _), Nat.sub_self]
        decide
      exact hqs '（' (occ_char_mem h' (by omega) (by omega) hc) (by decide)
    · exfalso
      obtain ⟨c, hc⟩ : ∃ c, q[0]? = some c := by
        cases q with
        | nil => exact absurd rfl hq
        | cons c _ => exact ⟨c, by simp⟩
      have h0 := pfx_drop_getElem hin (k := 0) hqlen
      rw [Nat.add_zero] at h0
      have hcmem : c ∈ CLOSE := List.getElem?_mem (h0.trans hc)
      exact hqs c (List.getElem?_mem hc) (sp_of_close hcmem)

theorem occ_in_WRAP_self {pat : List Char} (hp : pat ≠ []) (hps : noSpecials pat) {m : Nat}
    (h : pat <+: (WRAP pat).drop m) (hfit : m + pat.length ≤ (WRAP pat).length) : m = 1 := by
  obtain ⟨h1, h2, -⟩ := occ_in_WRAP hp hps h hfit
  have : 0 < pat.length := List.length_pos.mpr hp
  omega

theorem RL_cons {pat repl : List Char} {s t : List Char} (c : Char)
    (hrl : RL pat repl s t) (hnp : ¬ pat <+: (c :: s)) : RL pat repl (c :: s) (c :: t) := by
  cases hrl with
  | last u h =>
    refine RL.last (c :: s) ?_
    intro i
    cases i with
    | zero => simpa using hnp
    | succ i => simpa using h i
  | step u s' t' hu tail =>
    have hshape1 : c :: (u ++ (pat ++ s')) = (c :: u) ++ (pat ++ s') := rfl
    have hshape2 : c :: (u ++ (repl ++ t')) = (c :: u) ++ (repl ++ t') := rfl
    rw [hshape1, hshape2]
    refine RL.step (c :: u) s' t' ?_ tail
    intro j hj
    cases j with
    | zero =>
      intro hq
      apply hnp
      have h2 : (c :: u) ++ pat <+: (c :: u) ++ (pat ++ s') := by
        rw [show (c :: u) ++ (pat ++ s') = ((c :: u) ++ pat) ++ s' by
          rw [List.append_assoc]]
        exact List.prefix_append _ _
      exact (by simpa using hq : pat <+: (c :: u) ++ pat).trans h2
    | succ j =>
      intro hq
      exact hu j (by simpa using hj) (by simpa using hq)

theorem RL_replaceListFuel {pat repl : List Char} (hp : pat ≠ []) :
    ∀ (n : Nat) (s : List Char), s.length ≤ n →
      RL pat repl s (replaceListFuel pat repl n s) := by
  intro n
  induction n with
  | zero =>
    intro s hs
    have hnil : s = [] := List.length_eq_zero.mp (Nat.le_zero.mp hs)
    subst hnil
    exact RL.last [] (fun i hq => hp (List.prefix_nil.mp (by simpa using hq)))
  | succ n ih =>
    intro s hs
    cases s with
    | nil => exact RL.last [] (fun i hq => hp (List.prefix_nil.mp (by simpa using hq)))
    | cons c rest =>
      by_cases hb : (pat.isPrefixOf (c :: rest) && !pat.isEmpty) = true
      · have hpre : pat <+: c :: rest :=
          List.isPrefixOf_iff_prefix.mp ((Bool.and_eq_true _ _).mp hb).1
        obtain ⟨s2, hs2⟩ := hpre
        have hplen : 1 ≤ pat.length := List.length_pos.mpr hp
        have hout : replaceListFuel pat repl (n + 1) (c :: rest) =
            repl ++ replaceListFuel pat repl n (rest.drop (pat.length - 1)) := by
          rw [replaceListFuel, if_pos hb]
        have hdrop : rest.drop (pat.length - 1) = s2 := by
          have h1 : (c :: rest).drop pat.length = s2 := by
            rw [← hs2, List.drop_left]
          rw [show pat.length = (pat.length - 1) + 1 by omega] at h1
          simpa using h1
        have htail := ih (rest.drop (pat.length - 1)) (by
          have hle : (rest.drop (pat.length - 1)).length ≤ rest.length := by
            rw [List.length_drop]; omega
          have : rest.length ≤ n := by simpa using Nat.succ_le_succ_iff.mp hs
          omega)
        rw [hdrop] at htail
        have hshape : c :: rest = [] ++ (pat ++ s2) := by simpa using hs2.symm
        rw [hout, hdrop, hshape]
        exact RL.step [] s2 _ (fun j hj => absurd hj (by simp)) htail
      · have hout : replaceListFuel pat repl (n + 1) (c :: rest) =
            c :: replaceListFuel pat repl n rest := by
          rw [replaceListFuel, if_neg (by simpa using hb)]
        have hnp : ¬ pat <+: (c :: rest) := by
          intro hq
          apply hb
          rw [Bool.and_eq_true]
          exact ⟨List.isPrefixOf_iff_prefix.mpr hq, by simpa using hp⟩
        rw [hout]
        exact RL_cons c (ih rest (by simpa using Nat.succ_le_succ_iff.mp hs)) hnp

theorem replaceListFuel_no_occ {pat repl : List Char} :
    ∀ (n : Nat) (s : List Char), s.length ≤ n → (∀ i, ¬ pat <+: s.drop i) →
      replaceListFuel pat repl n s = s := by
  intro n
  induction n with
  | zero =>
    intro s hs hocc
    have hnil : s = [] := List.length_eq_zero.mp (Nat.le_zero.mp hs)
    subst hnil
    rfl
  | succ n ih =>
    intro s hs hocc
    cases s with
    | nil => rfl
    | cons c rest =>
      have hnp : ¬ pat <+: (c :: rest) := by simpa using hocc 0
      have hpre : pat.isPrefixOf (c :: rest) = false := by
        rw [← Bool.not_eq_true, List.isPrefixOf_iff_prefix]
        exact hnp
      rw [replaceListFuel, if_neg (by simp [hpre])]
      congr 1
      refine ih rest (by simpa using Nat.succ_le_succ_iff.mp hs) ?_
      intro i
      simpa using hocc (i + 1)

theorem RL_self_wrapped {pat : List Char} (hp : pat ≠ []) (hps : noSpecials pat)
    {s t : List Char} (hrl : RL pat (WRAP pat) s t) : AllWrapped pat t := by
  have hplen : 0 < pat.length := List.length_pos.mpr hp
  induction hrl with
  | last u h => exact fun i hocc => absurd hocc (h i)
  | step u s' t' hu tail ih =>
    intro i hocc
    rcases occ_cases2 hocc with ⟨hfit, hin⟩ | ⟨g1, g2⟩ | ⟨hge, hin⟩
    · exfalso
      refine hu i (by omega) ?_
      rw [List.drop_append_of_le_length (by omega)]
      exact hin.trans (List.prefix_append _ _)
    · exact absurd (occ_char_mem hocc (by omega) (by omega) boundary_head)
        (fun hmem => hps '※' hmem sp_mark)
    · rcases occ_cases2 hin with ⟨hfit2, hin2⟩ | ⟨g1, g2⟩ | ⟨hge2, hin3⟩
      · have hl1 := occ_in_WRAP_self hp hps hin2 hfit2
        refine ⟨u.length, by omega, ?_⟩
        rw [List.drop_left]
        exact List.prefix_append _ _
      · exfalso
        rw [WRAP_length] at g1 g2
        obtain ⟨cc, hccCLOSE, hcg⟩ := boundary_close (u := u) (r := t') (p := pat)
          (m := pat.length + 6) (by omega) (by omega)
        refine hps cc (occ_char_mem hocc ?_ ?_ hcg) (sp_of_close hccCLOSE)
        · omega
        · omega
      · obtain ⟨j', hj', hw⟩ := ih _ hin3
        refine ⟨u.length + ((WRAP pat).length + j'), by omega, ?_⟩
        rw [List.drop_append, List.drop_append]
        exact hw

theorem RL_other_preserved {pat q : List Char} (hp : pat ≠ []) (hq : q ≠ [])
    (hps : noSpecials pat) (hqs : noSpecials q)
    (hqpat : ∀ i, ¬ q <+: pat.drop i)
    {s t : List Char} (hrl : RL pat (WRAP pat) s t) (hws : AllWrapped q s) :
    AllWrapped q t := by
  have hplen : 0 < pat.length := List.length_pos.mpr hp
  have hqlen : 0 < q.length := List.length_pos.mpr hq
  revert hws
  induction hrl with
  | last u h => exact fun hws => hws
  | step u s' t' hu tail ih =>
    intro hws
    have hws' : AllWrapped q s' := by
      intro i' hocc'
      have hocc : q <+: (u ++ (pat ++ s')).drop (u.length + (pat.length + i')) := by
        rw [List.drop_append, List.drop_append]
        exact hocc'
      obtain ⟨j, hj, hw⟩ := hws _ hocc
      rcases Nat.eq_zero_or_pos i' with hi0 | hi0
      · exfalso
        subst hi0
        have hj' : j = u.length + (pat.length - 1) := by omega
        have hch : (u ++ (pat ++ s'))[j]? = some '※' := by
          have h0 := pfx_drop_getElem hw (k := 0) (by rw [WRAP_length]; omega)
          rw [Nat.add_zero] at h0
          rw [h0]
          exact WRAP_getElem_zero q
        have hch2 : (u ++ (pat ++ s'))[j]? = pat[pat.length - 1]? := by
          rw [hj', List.getElem?_append_right (by omega),
            show u.length + (pat.length - 1) - u.length = pat.length - 1 by omega]
          exact List.getElem?_append_left (by omega)
        exact hps '※' (List.getElem?_mem (hch2.symm.trans hch)) sp_mark
      · refine ⟨i' - 1, by omega, ?_⟩
        have hj' : j = u.length + (pat.length + (i' - 1)) := by omega
        rw [hj', List.drop_append, List.drop_append] at hw
        exact hw
    have ihq := ih hws'
    intro i hocc
    rcases occ_cases2 hocc with ⟨hfit, hin⟩ | ⟨g1, g2⟩ | ⟨hge, hin⟩
    · have hoccs : q <+: (u ++ (pat ++ s')).drop i := by
        rw [List.drop_append_of_le_length (by omega)]
        exact hin.trans (List.prefix_append _ _)
      obtain ⟨j, hj, hw⟩ := hws i hoccs
      have hblock : j + (WRAP q).length ≤ u.length := by
        by_contra hbig
        push_neg at hbig
        rw [WRAP_length] at hbig
        obtain ⟨cc, hccCLOSE, hcg⟩ := WRAP_getElem_close (q := q) (m := u.length - j)
          (by omega) (by omega)
        have hs1 : (u ++ (pat ++ s'))[u.length]? = (WRAP q)[u.length - j]? := by
          refine occ_char hw (by omega) ?_
          rw [WRAP_length]
          omega
        have hs2 : (u ++ (pat ++ s'))[u.length]? = pat[0]? := by
          rw [List.getElem?_append_right (Nat.le_refl _), Nat.sub_self]
          exact List.getElem?_append_left hplen
        exact hps cc (List.getElem?_mem (hs2.symm.trans (hs1.trans hcg)))
          (sp_of_close hccCLOSE)
      refine ⟨j, hj, ?_⟩
      have hwu : WRAP q <+: u.drop j := by
        rw [List.drop_append_of_le_length (by omega)] at hw
        exact pfx_of_pfx_append hw (by rw [List.length_drop]; omega)
      rw [List.drop_append_of_le_length (by omega)]
      exact hwu.trans (List.prefix_append _ _)
    · exact absurd (occ_char_mem hocc (by omega) (by omega) boundary_head)
        (fun hmem => hqs '※' hmem sp_mark)
    · rcases occ_cases2 hin with ⟨hfit2, hin2⟩ | ⟨g1, g2⟩ | ⟨hge2, hin3⟩
      · exfalso
        obtain ⟨-, -, hq_in⟩ := occ_in_WRAP hq hqs hin2 hfit2
        exact hqpat _ hq_in
      · exfalso
        rw [WRAP_length] at g1 g2
        obtain ⟨cc, hccCLOSE, hcg⟩ := boundary_close (u := u) (r := t') (p := pat)
          (m := pat.length + 6) (by omega) (by omega)
        refine hqs cc (occ_char_mem hocc ?_ ?_ hcg) (sp_of_close hccCLOSE)
        · omega
        · omega
      · obtain ⟨j', hj', hw'⟩ := ihq _ hin3
        refine ⟨u.length + ((WRAP pat).length + j'), by omega, ?_⟩
        rw [List.drop_append, List.drop_append]
        exact hw'

theorem fold_wrapped (ws : List (List Char)) :
    ∀ (P : List (List Char)) (t : List Char),
      (∀ w, w ∈ P ∨ w ∈ ws → w ≠ [] ∧ noSpecials w) →
      (P ++ ws).Nodup →
      (∀ w ∈ P, AllWrapped w t) →
      ∀ w, (w ∈ P ∨ w ∈ ws) → AllWrapped w (ws.foldl sanitizePass t) := by
  induction ws with
  | nil =>
    intro P t hspec hnodup hP w hw
    rcases hw with hw | hw
    · exact hP w hw
    · cases hw
  | cons p rest ih =>
    intro P t hspec hnodup hP w hw
    have hpspec := hspec p (Or.inr (List.mem_cons_self _ _))
    have hmemconv : ∀ w', w' ∈ P ++ [p] ∨ w' ∈ rest → w' ∈ P ∨ w' ∈ p :: rest := by
      intro w' hw'
      rcases hw' with hw' | hw'
      · rcases List.mem_append.mp hw' with h | h
        · exact Or.inl h
        · have : w' = p := by simpa using h
          exact Or.inr (this ▸ List.mem_cons_self _ _)
      · exact Or.inr (List.mem_cons_of_mem _ hw')
    have hnodup' : ((P ++ [p]) ++ rest).Nodup := by
      rw [List.append_assoc]
      simpa using hnodup
    have hwconv : w ∈ P ++ [p] ∨ w ∈ rest := by
      rcases hw with h | h
      · exact Or.inl (List.mem_append.mpr (Or.inl h))
      · rcases List.mem_cons.mp h with h | h
        · exact Or.inl (List.mem_append.mpr (Or.inr (by simp [h])))
        · exact Or.inr h
    by_cases hocc : ∃ q ∈ P, ∃ iq, q <+: p.drop iq
    · obtain ⟨q, hqP, iq, hqp⟩ := hocc
      have hqspec := hspec q (Or.inl hqP)
      have hqnep : q ≠ p := by
        intro he
        exact (List.disjoint_of_nodup_append hnodup) (he ▸ hqP) (List.mem_cons_self _ _)
      have hqlen : 0 < q.length := List.length_pos.mpr hqspec.1
      have hplen : 0 < p.length := List.length_pos.mpr hpspec.1
      have hiqlt : iq < p.length := by
        by_contra hge2
        push_neg at hge2
        rw [List.drop_eq_nil_of_le hge2] at hqp
        exact hqspec.1 (List.prefix_nil.mp hqp)
      have hnop : ∀ i', ¬ p <+: t.drop i' := by
        intro i' hpocc
        have hqt : q <+: t.drop (i' + iq) := by
          obtain ⟨r, hr⟩ := hpocc
          have hde : t.drop (i' + iq) = p.drop iq ++ r := by
            rw [← List.drop_drop, ← hr, List.drop_append_of_le_length (by omega)]
          rw [hde]
          exact hqp.trans (List.prefix_append _ _)
        obtain ⟨j, hj, hw2⟩ := hP q hqP _ hqt
        rcases Nat.eq_zero_or_pos iq with hiq0 | hiq0
        · subst hiq0
          have hqlt : q.length < p.length := by
            rcases Nat.lt_or_ge q.length p.length with h | h
            · exact h
            · exfalso
              have hle : q.length ≤ p.length := by
                have := hqp.length_le
                simpa using this
              have heq : q = p :=
                List.IsPrefix.eq_of_length (by simpa using hqp) (by omega)
              exact hqnep heq
          obtain ⟨cc, hccC, hcg⟩ := WRAP_getElem_close (q := q) (m := q.length + 1)
            (by omega) (by omega)
          have ht1 : t[j + (q.length + 1)]? = (WRAP q)[q.length + 1]? :=
            pfx_drop_getElem hw2 (by rw [WRAP_length]; omega)
          have ht2 : t[i' + q.length]? = p[q.length]? := pfx_drop_getElem hpocc hqlt
          rw [show j + (q.length + 1) = i' + q.length by omega] at ht1
          exact hpspec.2 cc (List.getElem?_mem (ht2.symm.trans (ht1.trans hcg)))
            (sp_of_close hccC)
        · have hch : t[j]? = some '※' := by
            have h0 := pfx_drop_getElem hw2 (k := 0) (by rw [WRAP_length]; omega)
            rw [Nat.add_zero] at h0
            rw [h0]
            exact WRAP_getElem_zero q
          have hch2 : t[j]? = p[iq - 1]? := by
            have hcc := occ_char hpocc (m := j) (by omega) (by omega)
            rw [hcc, show j - i' = iq - 1 by omega]
          exact hpspec.2 '※' (List.getElem?_mem (hch2.symm.trans hch)) sp_mark
      have hid : replaceListFuel p (WRAP p) t.length t = t :=
        replaceListFuel_no_occ t.length t (Nat.le_refl _) hnop
      show AllWrapped w (rest.foldl sanitizePass (sanitizePass t p))
      rw [show sanitizePass t p = t from hid]
      refine ih (P ++ [p]) t (fun w' hw' => hspec w' (hmemconv w' hw')) hnodup' ?_ w hwconv
      intro w' hw'
      rcases List.mem_append.mp hw' with h | h
      · exact hP w' h
      · have : w' = p := by simpa using h
        subst this
        exact fun i2 hocc2 => absurd hocc2 (hnop i2)
    · push_neg at hocc
      have hrl : RL p (WRAP p) t (replaceListFuel p (WRAP p) t.length t) :=
        RL_replaceListFuel hpspec.1 t.length t (Nat.le_refl _)
      have hw_p : AllWrapped p (replaceListFuel p (WRAP p) t.length t) :=
        RL_self_wrapped hpspec.1 hpspec.2 hrl
      have hw_P : ∀ q ∈ P, AllWrapped q (replaceListFuel p (WRAP p) t.length t) := by
        intro q hqP
        exact RL_other_preserved hpspec.1 (hspec q (Or.inl hqP)).1 hpspec.2
          (hspec q (Or.inl hqP)).2 (hocc q hqP) hrl (hP q hqP)
      show AllWrapped w (rest.foldl sanitizePass (sanitizePass t p))
      refine ih (P ++ [p]) (sanitizePass t p)
        (fun w' hw' => hspec w' (hmemconv w' hw')) hnodup' ?_ w hwconv
      intro w' hw'
      rcases List.mem_append.mp hw' with h | h
      · exact hw_P w' h
      · have : w' = p := by simpa using h
        subst this
        exact hw_p

theorem fold_sanitize_data (ws : List String) : ∀ (text : String),
    (ws.foldl (fun out w => replaceAll out w ("※" ++ w ++ "（表現調整）")) text).data =
      (ws.map String.data).foldl sanitizePass text.data := by
  induction ws with
  | nil => intro text; rfl
  | cons w rest ih =>
    intro text
    show (rest.foldl _ (replaceAll text w ("※" ++ w ++ "（表現調整）"))).data =
      (rest.map String.data).foldl sanitizePass (sanitizePass text.data w.data)
    rw [ih]
    congr 1

theorem jsTrim_data (s : String) : (jsTrim s).data = trimChars s.data := rfl

theorem sanitizeForbidden_data (text : String) :
    (sanitizeForbidden text).data =
      trimChars ((BANNED_WORDS.map String.data).foldl sanitizePass text.data) := by
  unfold sanitizeForbidden
  rw [jsTrim_data, fold_sanitize_data]

theorem allWrapped_of_ws_pfx {pat l₁ l₂ : List Char}
    (hws : ∀ c ∈ l₁, isJsWs c = true) (h : AllWrapped pat (l₁ ++ l₂)) :
    AllWrapped pat l₂ := by
  intro i hocc
  have hocc2 : pat <+: (l₁ ++ l₂).drop (l₁.length + i) := by
    rw [List.drop_append]
    exact hocc
  obtain ⟨j, hj, hw⟩ := h _ hocc2
  rcases Nat.eq_zero_or_pos i with hi0 | hi0
  · exfalso
    subst hi0
    have hch : (l₁ ++ l₂)[j]? = some '※' := by
      have h0 := pfx_drop_getElem hw (k := 0) (by rw [WRAP_length]; omega)
      rw [Nat.add_zero] at h0
      rw [h0]
      exact WRAP_getElem_zero pat
    have hjl : j < l₁.length := by omega
    have hmem : '※' ∈ l₁ :=
      List.getElem?_mem ((List.getElem?_append_left hjl).symm.trans hch)
    exact absurd (hws '※' hmem) (by decide)
  · refine ⟨i - 1, by omega, ?_⟩
    rw [show j = l₁.length + (i - 1) by omega, List.drop_append] at hw
    exact hw

theorem allWrapped_of_ws_suffix {pat l₁ l₂ : List Char} (hp : pat ≠ [])
    (hws : ∀ c ∈ l₂, isJsWs c = true) (h : AllWrapped pat (l₁ ++ l₂)) :
    AllWrapped pat l₁ := by
  have hplen : 0 < pat.length := List.length_pos.mpr hp
  intro i hocc
  have hilen : i + pat.length ≤ l₁.length := by
    have hle := hocc.length_le
    rw [List.length_drop] at hle
    omega
  have hocc2 : pat <+: (l₁ ++ l₂).drop i := by
    rw [List.drop_append_of_le_length (by omega)]
    exact hocc.trans (List.prefix_append _ _)
  obtain ⟨j, hj, hw⟩ := h _ hocc2
  have hfit : j + (WRAP pat).length ≤ l₁.length := by
    by_contra hbig
    push_neg at hbig
    rw [WRAP_length] at hbig
    obtain ⟨cc, hccC, hcg⟩ := WRAP_getElem_close (q := pat) (m := pat.length + 6)
      (by omega) (by omega)
    have ht1 : (l₁ ++ l₂)[j + (pat.length + 6)]? = (WRAP pat)[pat.length + 6]? :=
      pfx_drop_getElem hw (by rw [WRAP_length]; omega)
    have hinl2 : cc ∈ l₂ := by
      have hge : l₁.length ≤ j + (pat.length + 6) := by omega
      exact List.getElem?_mem
        ((List.getElem?_append_right hge).symm.trans (ht1.trans hcg))
    have hnws : ∀ c ∈ CLOSE, isJsWs c = false := by decide
    have hcontra := hws cc hinl2
    rw [hnws cc hccC] at hcontra
    cases hcontra
  refine ⟨j, hj, ?_⟩
  rw [List.drop_append_of_le_length (by omega)] at hw
  exact pfx_of_pfx_append hw (by rw [List.length_drop]; omega)

theorem rdrop_append_rtake (p : Char → Bool) (s : List Char) :
    s.rdropWhile p ++ s.rtakeWhile p = s := by
  rw [List.rdropWhile, List.rtakeWhile, ← List.reverse_append,
    List.takeWhile_append_dropWhile, List.reverse_reverse]

theorem allWrapped_trimChars {pat s : List Char} (hp : pat ≠ [])
    (h : AllWrapped pat s) : AllWrapped pat (trimChars s) := by
  have h1 : AllWrapped pat (s.rdropWhile isJsWs) := by
    refine @allWrapped_of_ws_suffix pat (s.rdropWhile isJsWs) (s.rtakeWhile isJsWs) hp ?_ ?_
    · intro c hc
      exact List.mem_rtakeWhile_imp hc
    · rw [rdrop_append_rtake]
      exact h
  show AllWrapped pat ((s.rdropWhile isJsWs).dropWhile isJsWs)
  refine @allWrapped_of_ws_pfx pat ((s.rdropWhile isJsWs).takeWhile isJsWs)
    ((s.rdropWhile isJsWs).dropWhile isJsWs) ?_ ?_
  · intro c hc
    exact List.mem_takeWhile_imp hc
  · rw [List.takeWhile_append_dropWhile]
    exact h1

/-- C7: the sanitizer's output never contains a banned word bare — every
occurrence of a banned word in `sanitizeForbidden text` is immediately
preceded by `※` and immediately followed by `（表現調整）`, i.e. sits inside
an annotated placeholder, for every input text. -/
theorem sanitizeForbidden_wrapped (text w : String) (hw : w ∈ BANNED_WORDS) (i : Nat)
    (hocc : w.data <+: (sanitizeForbidden text).data.drop i) :
    WrappedAt w.data (sanitizeForbidden text).data i := by
  have hside : ∀ x ∈ BANNED_WORDS.map String.data, x ≠ [] ∧ noSpecials x := by
    unfold noSpecials
    decide
  have hnd : (BANNED_WORDS.map String.data).Nodup := by decide
  have hfold := fold_wrapped (BANNED_WORDS.map String.data) [] text.data
    (fun x hx => hside x (by
      rcases hx with hx | hx
      · cases hx
      · exact hx))
    (by simpa using hnd)
    (fun x hx => absurd hx (List.not_mem_nil x))
    w.data (Or.inr (List.mem_map_of_mem String.data hw))
  have hwne : w.data ≠ [] :=
    (hside w.data (List.mem_map_of_mem String.data hw)).1
  have htrim := allWrapped_trimChars hwne hfold
  rw [sanitizeForbidden_data] at hocc ⊢
  exact htrim i hocc

/-- Witness for C7: in `この物件は最高です` the banned word `最高` is replaced
and its occurrence in the output sits inside `※最高（表現調整）`. -/
theorem sanitizeForbidden_wrapped_witness :
    "最高" ∈ BANNED_WORDS ∧
    ("最高".data <+: (sanitizeForbidden "この物件は最高です").data.drop 6) ∧
    WrappedAt "最高".data (sanitizeForbidden "この物件は最高です").data 6 := by
  refine ⟨by decide, by decide, ?_⟩
  exact sanitizeForbidden_wrapped "この物件は最高です" "最高" (by decide) 6 (by decide)

end MansionWriter
